import Mathlib

/-!
Verification development for the peerset.DB record-synchronization engine.

The definitions below are shallow embeddings of the JavaScript/TypeScript
source: `merkleTree.js` (Merkle tree construction), `efficientMerkleSync.js`
(progressive sync protocol and record-request batching), `App.svelte`
(per-peer sync orchestration and ingestion), `moderation.js`, and
`Keymanager.svelte` (login token handling).  SHA-256 and the Schnorr
primitives are abstracted as function parameters; machine timestamps are
modelled as exact numbers.
-/

namespace PeersetDB

/-! ## Basic helpers -/

/-- Sorted copy of a list of strings; models JS `Array.prototype.sort()` on
string arrays (lexicographic comparison). -/
def sortStrings (xs : List String) : List String :=
  List.insertionSort (· ≤ ·) xs

/-- JS object property lookup `records[k]` on a string-valued object modelled
as an association list (first binding wins, as JS objects have unique keys). -/
def lookupEntry (records : List (String × String)) (k : String) : String :=
  ((records.find? (fun e => e.1 == k)).map Prod.snd).getD ""

/-- The keys of an object modelled as an association list. -/
def keysOf {α : Type} (records : List (String × α)) : List String :=
  records.map Prod.fst

/-- JS map lookup `m[k]` returning `undefined` (`none`) when absent. -/
def lookupA {α : Type} (l : List (String × α)) (k : String) : Option α :=
  (l.find? (fun e => e.1 == k)).map Prod.snd

/-- JS map assignment `m[k] = v`: overwrite the binding in place, or append
a new one. -/
def setA {α : Type} : List (String × α) → String → α → List (String × α)
  | [], k, v => [(k, v)]
  | (k0, v0) :: rest, k, v =>
      if k0 = k then (k0, v) :: rest else (k0, v0) :: setA rest k v

/-- JS `delete m[k]`. -/
def removeA {α : Type} (l : List (String × α)) (k : String) :
    List (String × α) :=
  l.filter (fun e => e.1 != k)

/-- A per-peer boolean flag map, modelled as the set of peers for which the
flag is `true`; setting the flag appends, clearing removes. -/
def addFlag (l : List String) (k : String) : List String :=
  if k ∈ l then l else l ++ [k]

def removeFlag (l : List String) (k : String) : List String :=
  l.filter (fun e => e != k)

/-! ## Merkle tree (merkleTree.js) -/

/-- `MerkleNode` from merkleTree.js: `hash`, optional `left`/`right` children,
`uuids` (all record identifiers in the subtree), `isLeaf`. -/
inductive MerkleNode : Type where
  | mk (hash : String) (left : Option MerkleNode) (right : Option MerkleNode)
      (uuids : List String) (isLeaf : Bool)

def MerkleNode.hash : MerkleNode → String
  | .mk h _ _ _ _ => h

def MerkleNode.left : MerkleNode → Option MerkleNode
  | .mk _ l _ _ _ => l

def MerkleNode.right : MerkleNode → Option MerkleNode
  | .mk _ _ r _ _ => r

def MerkleNode.uuids : MerkleNode → List String
  | .mk _ _ _ u _ => u

def MerkleNode.isLeaf : MerkleNode → Bool
  | .mk _ _ _ _ b => b

/-- One pairwise combination step of `buildMerkleTreeNodes`: hash the
concatenated child hashes, merge and sort the child uuid sets. -/
def combineNodes (sha : String → String) (l r : MerkleNode) : MerkleNode :=
  .mk (sha (l.hash ++ r.hash)) (some l) (some r)
    (sortStrings (l.uuids ++ r.uuids)) false

/-- The inner `for (let i = 0; i < nodes.length; i += 2)` loop of
`buildMerkleTreeNodes`: pair adjacent nodes; an odd trailing node is promoted
unchanged. -/
def combineLevel (sha : String → String) : List MerkleNode → List MerkleNode
  | [] => []
  | [n] => [n]
  | a :: b :: rest => combineNodes sha a b :: combineLevel sha rest

/-- The body of the `while (nodes.length > 1)` loop of
`buildMerkleTreeNodes`, with an explicit bound on the number of rounds.  A
round strictly shrinks any level of length ≥ 2, so `nodes.length` rounds
always suffice; `buildLevels_unfold` below recovers the literal loop
equation. -/
def buildLevelsGo (sha : String → String) :
    Nat → List MerkleNode → List MerkleNode
  | 0, nodes => nodes
  | fuel + 1, nodes =>
      if nodes.length ≤ 1 then nodes
      else buildLevelsGo sha fuel (combineLevel sha nodes)

/-- The `while (nodes.length > 1)` loop of `buildMerkleTreeNodes`. -/
def buildLevels (sha : String → String) (nodes : List MerkleNode) :
    List MerkleNode :=
  buildLevelsGo sha nodes.length nodes

/-- Translation of `buildMerkleTreeNodes` from merkleTree.js: sort the uuid
keys, make one leaf per key carrying that record's content hash, then combine
levels pairwise until a single root remains.  The empty map yields the
distinguished leaf with `hash = sha256("")` and no uuids. -/
def buildMerkleTreeNodes (sha : String → String)
    (records : List (String × String)) : MerkleNode :=
  let keys := sortStrings (keysOf records)
  if keys.isEmpty then .mk (sha "") none none [] true
  else
    let leafNodes := keys.map
      (fun u => MerkleNode.mk (lookupEntry records u) none none [u] true)
    match buildLevels sha leafNodes with
    | [] => .mk (sha "") none none [] true
    | r :: _ => r

/-- The in-order sequence of childless nodes of a Merkle tree (used to state
that the built tree has exactly the sorted entries at its leaf positions). -/
def MerkleNode.leaves : MerkleNode → List MerkleNode
  | .mk h none none u lf => [.mk h none none u lf]
  | .mk _ (some l) none _ _ => l.leaves
  | .mk _ none (some r) _ _ => r.leaves
  | .mk _ (some l) (some r) _ _ => l.leaves ++ r.leaves

/-- Spec §4.1: every node with children has both children, its hash is the
SHA-256 of the concatenation of the children's hex hashes, its uuid list is
the sorted union of the children's uuids, and it is not a leaf. -/
def WellCombined (sha : String → String) : MerkleNode → Prop
  | .mk _ none none _ _ => True
  | .mk _ (some _) none _ _ => False
  | .mk _ none (some _) _ _ => False
  | .mk h (some l) (some r) u lf =>
      h = sha (l.hash ++ r.hash) ∧ u = sortStrings (l.uuids ++ r.uuids) ∧
      lf = false ∧ WellCombined sha l ∧ WellCombined sha r

/-! ## Progressive sync protocol (efficientMerkleSync.js) -/

/-- A `subtreeHashes` array entry from efficientMerkleSync.js. -/
structure SubtreeItem where
  path : String
  hash : String
  uuids : List String
  hasChildren : Bool
deriving DecidableEq

/-- A sync protocol message as sent via `sendSubtree` / `sendRootHash`. -/
inductive SyncMsg : Type where
  | requestSubtreeHashes (path : String) (depth : Nat)
  | subtreeHashes (items : List SubtreeItem)
  | requestRecords (uuids : List String)
  | rootHash (merkleRoot : String)
deriving DecidableEq

/-- Character-level `split('.')`: cut the character list at every dot,
keeping empty segments (exactly as `String.prototype.split`). -/
def splitDots : List Char → List (List Char)
  | [] => [[]]
  | c :: rest =>
      let groups := splitDots rest
      if c = '.' then [] :: groups
      else
        match groups with
        | [] => [[c]]
        | g :: gs => (c :: g) :: gs

/-- `path.split('.').filter(p => p)` from `getSubtreeAtPath`. -/
def parsePath (path : String) : List String :=
  ((splitDots path.data).map (fun cs => String.mk cs)).filter
    (fun p => p != "")

/-- The token-following loop of `getSubtreeAtPath`: descend into `left` /
`right` children, returning `null` (`none`) whenever a token is unknown or
the child is missing. -/
def followTokens : MerkleNode → List String → Option MerkleNode
  | n, [] => some n
  | n, t :: ts =>
      if t = "left" then
        match n.left with
        | some l => followTokens l ts
        | none => none
      else if t = "right" then
        match n.right with
        | some r => followTokens r ts
        | none => none
      else none

/-- Translation of `EfficientMerkleSync.getSubtreeAtPath`: the empty path
addresses the whole tree; otherwise split the dotted path and follow the
tokens. -/
def getSubtreeAtPath (tree : MerkleNode) (path : String) : Option MerkleNode :=
  if path = "" then some tree
  else followTokens tree (parsePath path)

/-- Spec-side path resolution (§4.1 Addressing): `PathAddresses tree ts m`
holds when following the `left`/`right` tokens `ts` from `tree` reaches the
node `m`. -/
inductive PathAddresses : MerkleNode → List String → MerkleNode → Prop where
  | here (n : MerkleNode) : PathAddresses n [] n
  | goLeft {n l m : MerkleNode} {ts : List String} :
      n.left = some l → PathAddresses l ts m →
      PathAddresses n ("left" :: ts) m
  | goRight {n r m : MerkleNode} {ts : List String} :
      n.right = some r → PathAddresses r ts m →
      PathAddresses n ("right" :: ts) m

/-- Translation of `EfficientMerkleSync.extractSubtreeHashes`: summaries of
the descendants at the given depth below `node` (at depth 0, the node
itself; a childless node encountered early is reported at its own path). -/
def extractSubtreeHashes : MerkleNode → String → Nat → List SubtreeItem
  | n, basePath, 0 =>
      [⟨basePath, n.hash, n.uuids,
        !n.isLeaf && (n.left.isSome || n.right.isSome)⟩]
  | .mk h l r u _, basePath, depth + 1 =>
      let leftResults := match l with
        | some ln =>
            extractSubtreeHashes ln
              (if basePath = "" then "left" else basePath ++ ".left") depth
        | none => []
      let rightResults := match r with
        | some rn =>
            extractSubtreeHashes rn
              (if basePath = "" then "right" else basePath ++ ".right") depth
        | none => []
      let results := leftResults ++ rightResults
      if l.isNone && r.isNone then results ++ [⟨basePath, h, u, false⟩]
      else results

/-- Translation of `EfficientMerkleSync.handleSubtreeHashRequest`: the
`subtreeHashes` payload sent back for a `requestSubtreeHashes{path, depth}`
message — empty when the path addresses no node of the local tree. -/
def handleSubtreeHashRequest (sha : String → String)
    (localHashes : List (String × String)) (path : String) (depth : Nat) :
    List SubtreeItem :=
  let localTree := buildMerkleTreeNodes sha localHashes
  match getSubtreeAtPath localTree path with
  | none => []
  | some subtree => extractSubtreeHashes subtree path depth

/-- The `!localSubtree || localSubtree.hash !== remoteSubtree.hash` test of
`handleSubtreeHashes`. -/
def subtreeDiffers (localTree : MerkleNode) (item : SubtreeItem) : Bool :=
  match getSubtreeAtPath localTree item.path with
  | none => true
  | some localSubtree => localSubtree.hash != item.hash

/-- The `for (const remoteSubtree of request.subtreeHashes)` loop of
`EfficientMerkleSync.handleSubtreeHashes`: emit a deeper
`requestSubtreeHashes` for every differing item with children, and collect
the uuids of every differing item at leaf depth into `neededRecords`. -/
def syncCompareLoop (localTree : MerkleNode) :
    List SubtreeItem → List SyncMsg × List String
  | [] => ([], [])
  | item :: rest =>
      let tail := syncCompareLoop localTree rest
      if subtreeDiffers localTree item then
        if item.hasChildren then
          (SyncMsg.requestSubtreeHashes item.path 1 :: tail.1, tail.2)
        else (tail.1, item.uuids ++ tail.2)
      else tail

/-- Translation of `EfficientMerkleSync.handleSubtreeHashes`: the messages
emitted while walking the received items, and the `neededRecords` list that
is then handed to `batchRecordRequest`. -/
def handleSubtreeHashes (sha : String → String)
    (localHashes : List (String × String)) (items : List SubtreeItem) :
    List SyncMsg × List String :=
  syncCompareLoop (buildMerkleTreeNodes sha localHashes) items

/-- Translation of `EfficientMerkleSync.startSync`: compare the local root
hash against the remote one; on mismatch request the top-level subtree
hashes. -/
def startSync (sha : String → String) (localHashes : List (String × String))
    (remoteRootHash : String) : List SyncMsg :=
  let localTree := buildMerkleTreeNodes sha localHashes
  if localTree.hash = remoteRootHash then []
  else [SyncMsg.requestSubtreeHashes "" 1]

/-- `MAX_BATCH_SIZE` from efficientMerkleSync.js ("Max records per batch"). -/
def MAX_BATCH_SIZE : Nat := 50

/-- The per-peer entry of `EfficientMerkleSync.pendingRequests`: the JS
`Set` of collected uuids (insertion-ordered, duplicate-free) and whether the
batch timer is armed. -/
structure PendingBatch where
  records : List String
  timerArmed : Bool
deriving DecidableEq

/-- `Set.prototype.add`: append unless already present. -/
def insertRecord (s : List String) (r : String) : List String :=
  if r ∈ s then s else s ++ [r]

/-- Translation of `EfficientMerkleSync.flushRecordBatch`: a no-op on an
empty accumulator, otherwise send every collected uuid in one
`requestRecords` message and clear the accumulator and timer. -/
def flushRecordBatch (b : PendingBatch) : PendingBatch × Option (List String) :=
  if b.records.length = 0 then (b, none)
  else ({ records := [], timerArmed := false }, some b.records)

/-- Translation of `EfficientMerkleSync.batchRecordRequest`: add all new
uuids to the peer's accumulator, clear any prior timer, flush immediately
once the accumulator has reached `MAX_BATCH_SIZE`, and otherwise re-arm the
timer. -/
def batchRecordRequest (b : PendingBatch) (records : List String) :
    PendingBatch × Option (List String) :=
  let pendingRecords := records.foldl insertRecord b.records
  if MAX_BATCH_SIZE ≤ pendingRecords.length then
    flushRecordBatch { records := pendingRecords, timerArmed := false }
  else
    ({ records := pendingRecords, timerArmed := true }, none)

/-! ## Records and moderation (moderation.js) -/

structure RecordAuthor where
  npub : String
deriving DecidableEq

structure RecordContent where
  text : String
  link : Option String
deriving DecidableEq

structure RecordGeo where
  latitude : ℚ
  longitude : ℚ
deriving DecidableEq

structure RecordIntegrity where
  hash : String
  signature : String
deriving DecidableEq

/-- A record as in the wire/at-rest schema (db.js, moderation.js). -/
structure RecordData where
  uuid : String
  created_at : Int
  bucket : String
  author : RecordAuthor
  content : RecordContent
  geo : RecordGeo
  integrity : RecordIntegrity
deriving DecidableEq

/-- Translation of `moderateRecordsBatch` from moderation.js.  The active code
path batch-approves every record: `for (const uuid in records) results[uuid] =
true`. -/
def moderateRecordsBatch (records : List (String × RecordData)) :
    List (String × Bool) :=
  records.map (fun e => (e.1, true))

/-! ## Sync orchestrator and ingestion (App.svelte) -/

/-- `MIN_MERKLE_DELAY` from App.svelte (milliseconds). -/
def MIN_MERKLE_DELAY : ℚ := 500

/-- `MAX_MERKLE_DELAY` from App.svelte (milliseconds). -/
def MAX_MERKLE_DELAY : ℚ := 5000

/-- `BATCH_TIMING_HISTORY` from App.svelte. -/
def BATCH_TIMING_HISTORY : Nat := 5

/-- The 2-minute sync timeout duration from App.svelte (milliseconds). -/
def SYNC_TIMEOUT : ℚ := 120000

/-- The completion-check delay from App.svelte (milliseconds). -/
def COMPLETION_CHECK_DELAY : ℚ := 2000

/-- The `for (let i = 1; i < timings.length; i++)` loop of
`calculateAdaptiveDelay`: successive differences of the recorded batch
arrival times. -/
def intervalsOf : List ℚ → List ℚ
  | a :: b :: rest => (b - a) :: intervalsOf (b :: rest)
  | _ => []

/-- JS `Math.min` on two finite numbers. -/
def mathMin (a b : ℚ) : ℚ :=
  if a ≤ b then a else b

/-- JS `Math.max` on two finite numbers. -/
def mathMax (a b : ℚ) : ℚ :=
  if a ≤ b then b else a

/-- Translation of `calculateAdaptiveDelay` from App.svelte: with fewer than
two recorded timings return `MIN_MERKLE_DELAY`; otherwise twice the average
interval, bounded by `Math.min(Math.max(·, MIN), MAX)`. -/
def calculateAdaptiveDelay (timings : List ℚ) : ℚ :=
  if timings.length < 2 then MIN_MERKLE_DELAY
  else
    let intervals := intervalsOf timings
    let avgInterval := intervals.foldl (· + ·) 0 / (intervals.length : ℚ)
    mathMin (mathMax (avgInterval * 2) MIN_MERKLE_DELAY) MAX_MERKLE_DELAY

/-- The spec's `mean(diff(batch_arrival_times))` (§4.4). -/
def specMeanInterval (timings : List ℚ) : ℚ :=
  (List.zipWith (fun a b => b - a) timings timings.tail).sum
    / ((timings.length - 1 : ℕ) : ℚ)

/-- The spec's `clamp(x, lo, hi)` (§4.4). -/
def specClamp (x lo hi : ℚ) : ℚ :=
  max lo (min x hi)

/-- The module-level per-peer sync state of App.svelte.  Boolean per-peer
maps are the set of peers whose flag is `true` (JS `delete` is removal);
timer-handle maps record the armed delay in milliseconds. -/
structure OrchState where
  peerTraffic : List String
  lastActivity : List (String × ℚ)
  processingRecords : List String
  syncInProgress : List String
  syncTimeouts : List (String × ℚ)
  syncCompletionChecks : List (String × ℚ)
  pendingMerkleUpdates : List (String × ℚ)
  peerBatchTimings : List (String × List ℚ)
  pendingRequests : List (String × PendingBatch)
  hashMap : List (String × String)
  errorLog : List String
deriving DecidableEq

/-- Translation of `initPeer`: create the traffic entry and the
`lastActivity` entry when absent. -/
def initPeer (st : OrchState) (peerId : String) (now : ℚ) : OrchState :=
  let st1 :=
    if peerId ∈ st.peerTraffic then st
    else { st with peerTraffic := st.peerTraffic ++ [peerId] }
  match lookupA st1.lastActivity peerId with
  | some _ => st1
  | none => { st1 with lastActivity := setA st1.lastActivity peerId now }

/-- Translation of `cleanupPeerSync`: cancel the peer's timers, clear its
flags and batch-timing history, and drop its pending record-request
batches. -/
def cleanupPeerSync (st : OrchState) (peerId : String) : OrchState :=
  { st with
    syncTimeouts := removeA st.syncTimeouts peerId
    syncInProgress := removeFlag st.syncInProgress peerId
    processingRecords := removeFlag st.processingRecords peerId
    pendingRequests := removeA st.pendingRequests peerId
    pendingMerkleUpdates := removeA st.pendingMerkleUpdates peerId
    peerBatchTimings := removeA st.peerBatchTimings peerId
    syncCompletionChecks := removeA st.syncCompletionChecks peerId }

/-- Translation of `extendSyncTimeout`: re-arm the 2-minute timeout when one
is armed and a sync is in progress. -/
def extendSyncTimeout (st : OrchState) (peerId : String) : OrchState :=
  match lookupA st.syncTimeouts peerId with
  | some _ =>
      if peerId ∈ st.syncInProgress then
        { st with syncTimeouts := setA st.syncTimeouts peerId SYNC_TIMEOUT }
      else st
  | none => st

/-- Translation of `recordBatchTiming`: append the arrival time, keeping
only the last `BATCH_TIMING_HISTORY` entries. -/
def recordBatchTiming (st : OrchState) (peerId : String) (now : ℚ) :
    OrchState :=
  let old := (lookupA st.peerBatchTimings peerId).getD []
  let appended := old ++ [now]
  let kept :=
    if BATCH_TIMING_HISTORY < appended.length
    then appended.drop (appended.length - BATCH_TIMING_HISTORY)
    else appended
  { st with peerBatchTimings := setA st.peerBatchTimings peerId kept }

/-- Translation of `scheduleMerkleRootUpdate`: cancel any pending update and
arm a new one after the adaptive delay. -/
def scheduleMerkleRootUpdate (st : OrchState) (peerId : String) : OrchState :=
  let delay := calculateAdaptiveDelay ((lookupA st.peerBatchTimings peerId).getD [])
  { st with pendingMerkleUpdates := setA st.pendingMerkleUpdates peerId delay }

/-- Translation of `scheduleCompletionCheck`: (re-)arm the 2-second
completion check. -/
def scheduleCompletionCheck (st : OrchState) (peerId : String) : OrchState :=
  { st with
    syncCompletionChecks :=
      setA st.syncCompletionChecks peerId COMPLETION_CHECK_DELAY }

/-- Translation of the `getRootHash` handler of App.svelte.  `localRootHash`
is the debounced `merkleRoot` store value the handler compares against;
`st.hashMap` is the `hashMapStore` snapshot handed to
`EfficientMerkleSync.startSync`.  Returns the updated state and the emitted
sync messages. -/
def getRootHashHandler (st : OrchState) (sha : String → String)
    (localRootHash : String) (remoteRoot : String) (peerId : String)
    (now : ℚ) : OrchState × List SyncMsg :=
  if peerId ∉ st.peerTraffic then (st, [])
  else
    let st1 := initPeer st peerId now
    if remoteRoot ≠ localRootHash then
      if peerId ∈ st1.processingRecords then
        ({ st1 with lastActivity := setA st1.lastActivity peerId now }, [])
      else if peerId ∈ st1.syncInProgress then
        ({ st1 with lastActivity := setA st1.lastActivity peerId now }, [])
      else
        let st2 :=
          { st1 with syncInProgress := addFlag st1.syncInProgress peerId }
        let msgs := startSync sha st2.hashMap remoteRoot
        let st3 :=
          { st2 with syncTimeouts := setA st2.syncTimeouts peerId SYNC_TIMEOUT }
        ({ st3 with lastActivity := setA st3.lastActivity peerId now }, msgs)
    else
      ({ st1 with lastActivity := setA st1.lastActivity peerId now }, [])

/-- Translation of the `getRecords` handler of App.svelte (ingestion
pipeline).  The IndexedDB batch write is abstracted by `saveOk`:
`saveOk = false` models `saveRecordsBatch` throwing, which the handler's
inner `try/catch` turns into an error-log entry.  Steps: set
`processingRecords`, extend the sync timeout, record the batch timing,
moderate the batch, persist and index the approved records (or log the
failure), schedule the debounced Merkle update and the completion check,
and finally release `processingRecords`. -/
def getRecordsHandler (st : OrchState) (records : List (String × RecordData))
    (peerId : String) (now : ℚ) (saveOk : Bool) : OrchState :=
  let st1 :=
    { st with processingRecords := addFlag st.processingRecords peerId }
  let st2 := initPeer st1 peerId now
  let st3 := extendSyncTimeout st2 peerId
  let st4 := recordBatchTiming st3 peerId now
  let moderationResults := moderateRecordsBatch records
  let approved :=
    records.filter (fun e => (lookupA moderationResults e.1).getD false)
  let approvedHashes := approved.map (fun e => (e.1, e.2.integrity.hash))
  let st5 :=
    if 0 < approved.length then
      if saveOk then
        { st4 with
          hashMap := approvedHashes.foldl (fun m e => setA m e.1 e.2) st4.hashMap }
      else
        { st4 with
          errorLog := st4.errorLog ++ ["Error batch processing records"] }
    else st4
  let st6 := scheduleMerkleRootUpdate st5 peerId
  let st7 := scheduleCompletionCheck st6 peerId
  { st7 with processingRecords := removeFlag st7.processingRecords peerId }

/-! ## Key manager (Keymanager.svelte) -/

/-- The persisted login token. -/
structure LoginToken where
  v : Nat
  publicKey : String
  timestamp : Nat
  signature : String
deriving DecidableEq

/-- The cryptographic primitives of secp256k1.ts, abstracted as pure
functions: SHA-256 over a string of bytes, Schnorr verify
`(signature, messageHash, publicKey)`, Schnorr sign
`(messageHash, privateKey)`, Bech32 decoding (`none` models a decode
throw), x-only public key derivation, and lower-casing of hex strings. -/
structure CryptoPrims where
  sha256 : String → String
  verifySchnorr : String → String → String → Bool
  signSchnorr : String → String → String
  decodeBech32Key : String → Option String
  getXOnlyPublicKey : String → String
  toLower : String → String

/-- `TOKEN_VALIDITY_MS` from Keymanager.svelte. -/
def TOKEN_VALIDITY_MS : Nat := 24 * 60 * 60 * 1000

/-- Translation of `loadTokenFromDB`: no session when the token is absent,
older than `TOKEN_VALIDITY_MS`, or carrying a signature that does not
verify over `sha256(publicKey + timestamp)`; otherwise the session's public
key. -/
def loadTokenFromDB (c : CryptoPrims) (token : Option LoginToken)
    (now : Nat) : Option String :=
  match token with
  | none => none
  | some t =>
      if TOKEN_VALIDITY_MS < now - t.timestamp then none
      else
        let msgHash := c.sha256 (t.publicKey ++ toString t.timestamp)
        if c.verifySchnorr t.signature msgHash t.publicKey then
          some t.publicKey
        else none

/-- Translation of `handleImport`: decode both Bech32 keys, compare the
decoded public key against the one derived from the private key
(`ctEqualBytes` on equal-length lowercase hex is string equality), sign
`sha256(pubHex + timestamp)`, self-verify, and persist the token.  Returns
the persisted token and the in-memory session keys, or the error message. -/
def handleImport (c : CryptoPrims) (npubInput nsecInput : String)
    (now : Nat) : Except String (LoginToken × String × String) :=
  match c.decodeBech32Key npubInput, c.decodeBech32Key nsecInput with
  | some p0, some s0 =>
      let pubHex := c.toLower p0
      let privHex := c.toLower s0
      let derivedPub := c.toLower (c.getXOnlyPublicKey privHex)
      if pubHex ≠ derivedPub then
        .error "Public key does not match private key."
      else
        let msgHash := c.sha256 (pubHex ++ toString now)
        let sig := c.signSchnorr msgHash privHex
        if c.verifySchnorr sig msgHash pubHex then
          .ok (⟨1, pubHex, now, sig⟩, pubHex, privHex)
        else .error "Signature verification failed."
  | _, _ => .error "Error importing keys"

/-- A concrete stand-in hash function used for evaluating the model on
explicit inputs. -/
def demoSha (s : String) : String :=
  "sha[" ++ s ++ "]"

/-! ## Level-combination plumbing -/

theorem combineLevel_length (sha : String → String) :
    ∀ ns : List MerkleNode, (combineLevel sha ns).length = (ns.length + 1) / 2
  | [] => by simp [combineLevel]
  | [n] => by simp [combineLevel]
  | a :: b :: rest => by
      simp only [combineLevel, List.length_cons, combineLevel_length sha rest]
      omega

theorem buildLevelsGo_step (sha : String → String) :
    ∀ (f : Nat) (ns : List MerkleNode), ns.length ≤ f + 1 →
      buildLevelsGo sha (f + 1) ns = buildLevelsGo sha f ns := by
  intro f
  induction f with
  | zero =>
      intro ns h
      simp only [buildLevelsGo]
      split
      · rfl
      · omega
  | succ f ih =>
      intro ns h
      show (if ns.length ≤ 1 then ns
            else buildLevelsGo sha (f + 1) (combineLevel sha ns)) =
          (if ns.length ≤ 1 then ns
            else buildLevelsGo sha f (combineLevel sha ns))
      split
      · rfl
      · rename_i hgt
        exact ih (combineLevel sha ns)
          (by rw [combineLevel_length]; omega)

theorem buildLevelsGo_add (sha : String → String) :
    ∀ (k f : Nat) (ns : List MerkleNode), ns.length ≤ f + 1 →
      buildLevelsGo sha (f + k) ns = buildLevelsGo sha f ns := by
  intro k
  induction k with
  | zero => intro f ns _; rfl
  | succ k ih =>
      intro f ns h
      have h1 : f + (k + 1) = (f + k) + 1 := by omega
      rw [h1, buildLevelsGo_step sha (f + k) ns (by omega), ih f ns h]

/-- The fuel bound of `buildLevelsGo` is irrelevant once it covers the
level length. -/
theorem buildLevelsGo_congr (sha : String → String) (f g : Nat)
    (ns : List MerkleNode) (hf : ns.length ≤ f + 1) (hg : ns.length ≤ g + 1) :
    buildLevelsGo sha f ns = buildLevelsGo sha g ns := by
  rcases Nat.le_total f g with h | h
  · obtain ⟨k, rfl⟩ := Nat.le.dest h
    exact (buildLevelsGo_add sha k f ns hf).symm
  · obtain ⟨k, rfl⟩ := Nat.le.dest h
    exact buildLevelsGo_add sha k g ns hg

/-- `buildLevels` satisfies the literal `while` loop equation of the
source: return the level once it has at most one node, otherwise combine
pairwise and repeat. -/
theorem buildLevels_unfold (sha : String → String) (ns : List MerkleNode) :
    buildLevels sha ns =
      if ns.length ≤ 1 then ns else buildLevels sha (combineLevel sha ns) := by
  unfold buildLevels
  split
  · rename_i hle
    match ns, hle with
    | [], _ => rfl
    | [n], _ => rfl
  · rename_i hgt
    obtain ⟨m, hm⟩ : ∃ m, ns.length = m + 1 := ⟨ns.length - 1, by omega⟩
    rw [hm]
    show (if ns.length ≤ 1 then ns
        else buildLevelsGo sha m (combineLevel sha ns)) = _
    rw [if_neg hgt]
    exact buildLevelsGo_congr sha m (combineLevel sha ns).length
      (combineLevel sha ns)
      (by rw [combineLevel_length]; omega) (by omega)

/-! ## C6 — empty tree -/

/-- C6: building the Merkle tree from an empty hash map returns the
distinguished leaf whose hash is SHA-256 of the empty string and whose uuid
set is empty; two builds from empty maps share the root hash. -/
theorem c6_empty_map_build (sha : String → String)
    (r1 r2 : List (String × String))
    (h1 : keysOf r1 = []) (h2 : keysOf r2 = []) :
    buildMerkleTreeNodes sha r1 = MerkleNode.mk (sha "") none none [] true ∧
    (buildMerkleTreeNodes sha r1).hash = sha "" ∧
    (buildMerkleTreeNodes sha r1).uuids = [] ∧
    (buildMerkleTreeNodes sha r1).hash = (buildMerkleTreeNodes sha r2).hash := by
  have e1 : r1 = [] := by
    cases r1
    · rfl
    · simp [keysOf] at h1
  have e2 : r2 = [] := by
    cases r2
    · rfl
    · simp [keysOf] at h2
  subst e1
  subst e2
  exact ⟨rfl, rfl, rfl, rfl⟩

theorem c6_empty_map_build_witness :
    keysOf ([] : List (String × String)) = [] ∧
    buildMerkleTreeNodes demoSha [] =
      MerkleNode.mk (demoSha "") none none [] true :=
  ⟨rfl, (c6_empty_map_build demoSha [] [] rfl rfl).1⟩

/-! ## C10 — moderation -/

/-- C10: `moderateRecordsBatch` is total and approves everything: the
result's key list is the input's key list and every produced value is
`true`. -/
theorem c10_moderation_total_approves (records : List (String × RecordData)) :
    keysOf (moderateRecordsBatch records) = keysOf records ∧
    (moderateRecordsBatch records).map Prod.snd =
      List.replicate records.length true := by
  constructor
  · simp [moderateRecordsBatch, keysOf]
  · induction records with
    | nil => rfl
    | cons e rest ih =>
        simpa [moderateRecordsBatch, List.replicate] using ih

/-! ## C8 — adaptive debounce delay -/

theorem intervalsOf_eq_zipWith :
    ∀ l : List ℚ, intervalsOf l = List.zipWith (fun a b => b - a) l l.tail
  | [] => rfl
  | [a] => rfl
  | a :: b :: r => by
      simp only [intervalsOf, List.tail_cons, List.zipWith]
      rw [intervalsOf_eq_zipWith (b :: r)]
      simp [List.zipWith]

theorem foldl_add_eq_sum (l : List ℚ) (a : ℚ) :
    l.foldl (· + ·) a = a + l.sum := by
  induction l generalizing a with
  | nil => simp
  | cons x xs ih => simp [ih, add_assoc]

theorem mathMinMax_eq_clamp (x lo hi : ℚ) (h : lo ≤ hi) :
    mathMin (mathMax x lo) hi = specClamp x lo hi := by
  unfold mathMin mathMax specClamp
  rcases le_total x lo with hx | hx <;> rcases le_total x hi with hy | hy <;>
    simp only [max_def, min_def] <;> split_ifs <;> linarith

/-- C8: the adaptive debounce delay equals `MIN_MERKLE_DELAY = 500 ms` when
fewer than two batch-arrival times are recorded, and otherwise twice the
mean of the successive differences of the recorded times, clamped to
[500 ms, 5000 ms]. -/
theorem c8_adaptive_delay (timings : List ℚ) :
    calculateAdaptiveDelay timings =
      if timings.length < 2 then MIN_MERKLE_DELAY
      else specClamp (2 * specMeanInterval timings)
        MIN_MERKLE_DELAY MAX_MERKLE_DELAY := by
  unfold calculateAdaptiveDelay
  split
  · rfl
  · show mathMin (mathMax
        ((intervalsOf timings).foldl (· + ·) 0 /
          ((intervalsOf timings).length : ℚ) * 2)
        MIN_MERKLE_DELAY) MAX_MERKLE_DELAY = _
    rw [← mathMinMax_eq_clamp _ _ _
      (by norm_num [MIN_MERKLE_DELAY, MAX_MERKLE_DELAY])]
    congr 1
    congr 1
    rw [foldl_add_eq_sum, zero_add, intervalsOf_eq_zipWith]
    have hlen2 : (List.zipWith (fun a b => b - a) timings timings.tail).length
        = timings.length - 1 := by
      rw [List.length_zipWith, List.length_tail]
      omega
    rw [specMeanInterval, hlen2]
    ring

/-! ## C7 — path resolution -/

theorem pathAddresses_nil {n m : MerkleNode} (h : PathAddresses n [] m) :
    m = n := by
  cases h
  rfl

theorem pathAddresses_followTokens {n m : MerkleNode} {ts : List String}
    (h : PathAddresses n ts m) : followTokens n ts = some m := by
  induction h with
  | here => rfl
  | goLeft h1 _ ih => simp [followTokens, h1, ih]
  | goRight h1 _ ih => simp [followTokens, h1, ih]

theorem followTokens_pathAddresses :
    ∀ (ts : List String) (n m : MerkleNode),
      followTokens n ts = some m → PathAddresses n ts m := by
  intro ts
  induction ts with
  | nil =>
      intro n m h
      simp only [followTokens, Option.some.injEq] at h
      subst h
      exact .here n
  | cons t ts ih =>
      intro n m h
      simp only [followTokens] at h
      split at h
      · rename_i ht
        subst ht
        cases hl : n.left with
        | none => rw [hl] at h; simp at h
        | some l => rw [hl] at h; exact .goLeft hl (ih l m h)
      · split at h
        · rename_i ht2
          subst ht2
          cases hr : n.right with
          | none => rw [hr] at h; simp at h
          | some r => rw [hr] at h; exact .goRight hr (ih r m h)
        · simp at h

/-- C7: subtree addressing is total — the empty path addresses the root, a
non-addressing path yields `none` (never an error), a valid path yields the
addressed node, and a `REQUEST_SUBTREE` whose path addresses no node of the
local tree is answered with the empty `SUBTREE_HASHES` list. -/
theorem c7_path_resolution_total (tree : MerkleNode) (path : String)
    (sha : String → String) (localHashes : List (String × String))
    (depth : Nat) :
    getSubtreeAtPath tree "" = some tree ∧
    (∀ m, getSubtreeAtPath tree path = some m ↔
      PathAddresses tree (parsePath path) m) ∧
    (getSubtreeAtPath tree path = none ↔
      ∀ m, ¬ PathAddresses tree (parsePath path) m) ∧
    (getSubtreeAtPath (buildMerkleTreeNodes sha localHashes) path = none →
      handleSubtreeHashRequest sha localHashes path depth = []) := by
  have hsome : ∀ m, getSubtreeAtPath tree path = some m ↔
      PathAddresses tree (parsePath path) m := by
    intro m
    unfold getSubtreeAtPath
    split
    · rename_i hp
      subst hp
      constructor
      · intro h
        cases h
        exact .here tree
      · intro h
        have := pathAddresses_nil (by simpa [parsePath, splitDots] using h)
        subst this
        rfl
    · exact ⟨followTokens_pathAddresses (parsePath path) tree m,
        pathAddresses_followTokens⟩
  refine ⟨rfl, hsome, ?_, ?_⟩
  · constructor
    · intro h m hm
      rw [← hsome m] at hm
      rw [h] at hm
      cases hm
    · intro h
      cases hv : getSubtreeAtPath tree path with
      | none => rfl
      | some m => exact absurd ((hsome m).mp hv) (h m)
  · intro h
    simp only [handleSubtreeHashRequest]
    rw [h]

theorem c7_path_resolution_total_witness :
    getSubtreeAtPath (buildMerkleTreeNodes demoSha []) "left" = none ∧
    handleSubtreeHashRequest demoSha [] "left" 1 = [] :=
  ⟨rfl, (c7_path_resolution_total (buildMerkleTreeNodes demoSha []) "left"
    demoSha [] 1).2.2.2 rfl⟩

/-! ## C1 — leaf-level uuids are batched without filtering -/

theorem syncCompareLoop_mem :
    ∀ (tree : MerkleNode) (items : List SubtreeItem) (u : String),
      u ∈ (syncCompareLoop tree items).2 ↔
        ∃ item, item ∈ items ∧ item.hasChildren = false ∧
          subtreeDiffers tree item = true ∧ u ∈ item.uuids := by
  intro tree items u
  induction items with
  | nil => simp [syncCompareLoop]
  | cons item rest ih =>
      by_cases hd : subtreeDiffers tree item = true
      · by_cases hc : item.hasChildren = true
        · simp only [syncCompareLoop, hd, if_true, hc, if_true]
          rw [ih]
          constructor
          · rintro ⟨it, hmem, hpr⟩
            exact ⟨it, List.mem_cons_of_mem _ hmem, hpr⟩
          · rintro ⟨it, hmem, hfalse, hpr⟩
            rcases List.mem_cons.mp hmem with heq | hmem2
            · subst heq
              rw [hc] at hfalse
              cases hfalse
            · exact ⟨it, hmem2, hfalse, hpr⟩
        · have hc2 : item.hasChildren = false := by
            cases hcc : item.hasChildren
            · rfl
            · exact absurd hcc hc
          simp only [syncCompareLoop, hd, if_true, hc2, Bool.false_eq_true,
            if_false, List.mem_append]
          rw [ih]
          constructor
          · rintro (hu | ⟨it, hmem, hpr⟩)
            · exact ⟨item, List.mem_cons_self item rest, hc2, hd, hu⟩
            · exact ⟨it, List.mem_cons_of_mem _ hmem, hpr⟩
          · rintro ⟨it, hmem, hfalse, hdiff, hu⟩
            rcases List.mem_cons.mp hmem with heq | hmem2
            · subst heq
              exact Or.inl hu
            · exact Or.inr ⟨it, hmem2, hfalse, hdiff, hu⟩
      · have hd2 : subtreeDiffers tree item = false := by
          cases hdd : subtreeDiffers tree item
          · rfl
          · exact absurd hdd hd
        simp only [syncCompareLoop, hd2, Bool.false_eq_true, if_false]
        rw [ih]
        constructor
        · rintro ⟨it, hmem, hpr⟩
          exact ⟨it, List.mem_cons_of_mem _ hmem, hpr⟩
        · rintro ⟨it, hmem, hfalse, hdiff, hu⟩
          rcases List.mem_cons.mp hmem with heq | hmem2
          · subst heq
            rw [hd2] at hdiff
            cases hdiff
          · exact ⟨it, hmem2, hfalse, hdiff, hu⟩

/-- C1 (amended): a uuid enters the per-peer record-request batch exactly
when some received item at leaf depth (`hasChildren = false`) differs from
the local tree at its path and lists that uuid — the handler performs no
filtering against the local hash index. -/
theorem c1_leaf_uuids_batched_unfiltered (sha : String → String)
    (localHashes : List (String × String)) (items : List SubtreeItem)
    (u : String) :
    u ∈ (handleSubtreeHashes sha localHashes items).2 ↔
      ∃ item, item ∈ items ∧ item.hasChildren = false ∧
        subtreeDiffers (buildMerkleTreeNodes sha localHashes) item = true ∧
        u ∈ item.uuids := by
  unfold handleSubtreeHashes
  exact syncCompareLoop_mem (buildMerkleTreeNodes sha localHashes) items u

/-- C1 counterexample: with local hash index `{a ↦ h1}`, the differing leaf
item at path "" listing uuid "a" puts "a" — a key of the local hash index —
into the record-request batch, so the claimed filtering does not happen. -/
theorem c1_counterexample :
    "a" ∈ (handleSubtreeHashes demoSha [("a", "h1")]
        [⟨"", "zz", ["a"], false⟩]).2 ∧
    "a" ∈ keysOf [("a", "h1")] := by
  constructor
  · have h : (handleSubtreeHashes demoSha [("a", "h1")]
        [⟨"", "zz", ["a"], false⟩]).2 = ["a"] := rfl
    rw [h]
    exact List.mem_singleton.mpr rfl
  · have h : keysOf [("a", "h1")] = ["a"] := rfl
    rw [h]
    exact List.mem_singleton.mpr rfl

/-! ## C2 — batch size bound -/

set_option maxRecDepth 4000 in
/-- C2 (evaluation at the failing input): a single `batchRecordRequest` call
adding 51 fresh uuids to an empty accumulator triggers an immediate flush
that sends all 51 uuids in one `requestRecords` message — exceeding
`MAX_BATCH_SIZE = 50`, contrary to the claimed batching invariant. -/
theorem c2_batch_overflow :
    ((batchRecordRequest ⟨[], false⟩
        ((List.range 51).map (fun i => "u" ++ toString i))).2.map
      List.length) = some 51 ∧
    MAX_BATCH_SIZE = 50 :=
  ⟨rfl, rfl⟩

/-! ## C3 — canonical Merkle construction -/

theorem sortStrings_perm (xs : List String) : (sortStrings xs).Perm xs :=
  List.perm_insertionSort _ xs

theorem sortStrings_sorted (xs : List String) :
    (sortStrings xs).Sorted (· ≤ ·) :=
  List.sorted_insertionSort _ xs

theorem sortStrings_eq_of_perm {xs ys : List String} (h : xs.Perm ys) :
    sortStrings xs = sortStrings ys :=
  List.eq_of_perm_of_sorted
    ((sortStrings_perm xs).trans (h.trans (sortStrings_perm ys).symm))
    (sortStrings_sorted xs) (sortStrings_sorted ys)

theorem leaves_combineNodes (sha : String → String) (a b : MerkleNode) :
    (combineNodes sha a b).leaves = a.leaves ++ b.leaves :=
  rfl

theorem flatMap_leaves_combineLevel (sha : String → String) :
    ∀ ns : List MerkleNode,
      (combineLevel sha ns).flatMap MerkleNode.leaves = ns.flatMap MerkleNode.leaves
  | [] => rfl
  | [n] => rfl
  | a :: b :: rest => by
      simp only [combineLevel, List.flatMap_cons, leaves_combineNodes,
        flatMap_leaves_combineLevel sha rest]
      rw [List.append_assoc]

theorem flatMap_leaves_buildLevelsGo (sha : String → String) :
    ∀ (f : Nat) (ns : List MerkleNode),
      (buildLevelsGo sha f ns).flatMap MerkleNode.leaves =
        ns.flatMap MerkleNode.leaves := by
  intro f
  induction f with
  | zero => intro ns; rfl
  | succ f ih =>
      intro ns
      show ((if ns.length ≤ 1 then ns
          else buildLevelsGo sha f (combineLevel sha ns)).flatMap
        MerkleNode.leaves) = _
      split
      · rfl
      · rw [ih (combineLevel sha ns), flatMap_leaves_combineLevel]

theorem combineLevel_ne_nil (sha : String → String) :
    ∀ ns : List MerkleNode, ns ≠ [] → combineLevel sha ns ≠ []
  | [], h => absurd rfl h
  | [n], _ => by simp [combineLevel]
  | a :: b :: rest, _ => by simp [combineLevel]

theorem buildLevelsGo_ne_nil (sha : String → String) :
    ∀ (f : Nat) (ns : List MerkleNode), ns ≠ [] →
      buildLevelsGo sha f ns ≠ [] := by
  intro f
  induction f with
  | zero => intro ns h; exact h
  | succ f ih =>
      intro ns h
      show (if ns.length ≤ 1 then ns
          else buildLevelsGo sha f (combineLevel sha ns)) ≠ []
      split
      · exact h
      · exact ih (combineLevel sha ns) (combineLevel_ne_nil sha ns h)

theorem buildLevelsGo_length_le_one (sha : String → String) :
    ∀ (f : Nat) (ns : List MerkleNode), ns.length ≤ f + 1 →
      (buildLevelsGo sha f ns).length ≤ 1 := by
  intro f
  induction f with
  | zero => intro ns h; exact h
  | succ f ih =>
      intro ns h
      show (if ns.length ≤ 1 then ns
          else buildLevelsGo sha f (combineLevel sha ns)).length ≤ 1
      split
      · assumption
      · exact ih (combineLevel sha ns) (by rw [combineLevel_length]; omega)

theorem buildLevels_singleton (sha : String → String)
    (ns : List MerkleNode) (h : ns ≠ []) :
    ∃ r, buildLevels sha ns = [r] := by
  have h1 : (buildLevels sha ns).length ≤ 1 :=
    buildLevelsGo_length_le_one sha ns.length ns (by omega)
  have h2 : buildLevels sha ns ≠ [] := buildLevelsGo_ne_nil sha ns.length ns h
  match hv : buildLevels sha ns with
  | [] => exact absurd hv h2
  | [r] => exact ⟨r, rfl⟩
  | a :: b :: rest => rw [hv] at h1; simp at h1

/-- The root of a build over a non-empty map: the single survivor of
`buildLevels` applied to the sorted leaf level. -/
theorem buildMerkleTreeNodes_eq_root (sha : String → String)
    (records : List (String × String)) (hne : records ≠ []) :
    ∃ r, buildLevels sha ((sortStrings (keysOf records)).map
        (fun u => MerkleNode.mk (lookupEntry records u) none none [u] true)) =
          [r] ∧
      buildMerkleTreeNodes sha records = r := by
  have hkne : keysOf records ≠ [] := by
    cases records
    · exact absurd rfl hne
    · simp [keysOf]
  have hsne : sortStrings (keysOf records) ≠ [] := by
    intro hcontra
    have := (sortStrings_perm (keysOf records)).length_eq
    rw [hcontra] at this
    exact hkne (List.length_eq_zero.mp this.symm)
  have hlne : (sortStrings (keysOf records)).map
      (fun u => MerkleNode.mk (lookupEntry records u) none none [u] true) ≠ [] := by
    simpa using hsne
  obtain ⟨r, hr⟩ := buildLevels_singleton sha _ hlne
  refine ⟨r, hr, ?_⟩
  simp only [buildMerkleTreeNodes]
  rw [if_neg (by simpa [List.isEmpty_iff] using hsne), hr]

theorem flatMap_leaves_of_childless (records : List (String × String)) :
    ∀ keys : List String,
      (keys.map (fun u =>
        MerkleNode.mk (lookupEntry records u) none none [u] true)).flatMap
          MerkleNode.leaves =
        keys.map (fun u =>
          MerkleNode.mk (lookupEntry records u) none none [u] true)
  | [] => rfl
  | k :: rest => by
      simp only [List.map_cons, List.flatMap_cons,
        flatMap_leaves_of_childless records rest]
      rfl

theorem wellCombined_combineNodes (sha : String → String) {a b : MerkleNode}
    (ha : WellCombined sha a) (hb : WellCombined sha b) :
    WellCombined sha (combineNodes sha a b) :=
  ⟨rfl, rfl, rfl, ha, hb⟩

theorem wellCombined_combineLevel (sha : String → String) :
    ∀ ns : List MerkleNode, (∀ n ∈ ns, WellCombined sha n) →
      ∀ n ∈ combineLevel sha ns, WellCombined sha n
  | [], _ => by simp [combineLevel]
  | [n], h => by simpa [combineLevel] using h
  | a :: b :: rest, h => by
      intro n hn
      simp only [combineLevel, List.mem_cons] at hn
      rcases hn with heq | hmem
      · subst heq
        exact wellCombined_combineNodes sha
          (h a (by simp)) (h b (by simp))
      · exact wellCombined_combineLevel sha rest
          (fun m hm => h m (by simp [hm])) n hmem

theorem wellCombined_buildLevelsGo (sha : String → String) :
    ∀ (f : Nat) (ns : List MerkleNode), (∀ n ∈ ns, WellCombined sha n) →
      ∀ n ∈ buildLevelsGo sha f ns, WellCombined sha n := by
  intro f
  induction f with
  | zero => intro ns h; exact h
  | succ f ih =>
      intro ns h n hn
      rw [show buildLevelsGo sha (f + 1) ns =
          (if ns.length ≤ 1 then ns
            else buildLevelsGo sha f (combineLevel sha ns)) from rfl] at hn
      split at hn
      · exact h n hn
      · exact ih (combineLevel sha ns)
          (wellCombined_combineLevel sha ns h) n hn

theorem combineLevel_getLast_of_odd (sha : String → String) :
    ∀ ns : List MerkleNode, ns.length % 2 = 1 →
      (combineLevel sha ns).getLast? = ns.getLast?
  | [], h => by simp at h
  | [n], _ => rfl
  | a :: b :: rest, h => by
      have hodd : rest.length % 2 = 1 := by
        simp only [List.length_cons] at h
        omega
      have hrne : rest ≠ [] := by
        intro hcontra
        rw [hcontra] at hodd
        simp at hodd
      obtain ⟨r0, rs, hrest⟩ := List.exists_cons_of_ne_nil hrne
      have hcne : combineLevel sha rest ≠ [] := combineLevel_ne_nil sha rest hrne
      obtain ⟨c0, cs, hcl⟩ := List.exists_cons_of_ne_nil hcne
      have ih := combineLevel_getLast_of_odd sha rest hodd
      simp only [combineLevel]
      rw [hcl]
      rw [List.getLast?_cons_cons]
      rw [← hcl, ih, hrest]
      rw [List.getLast?_cons_cons, List.getLast?_cons_cons]

theorem find?_eq_of_nodupKeys {α : Type} :
    ∀ (records : List (String × α)) (k : String) (v : α),
      (keysOf records).Nodup → (k, v) ∈ records →
      records.find? (fun e => e.1 == k) = some (k, v) := by
  intro records
  induction records with
  | nil => intro k v _ hmem; cases hmem
  | cons e rest ih =>
      intro k v hnd hmem
      obtain ⟨k0, v0⟩ := e
      have hnd2 := hnd
      simp only [keysOf, List.map_cons, List.nodup_cons] at hnd2
      by_cases hk : k0 = k
      · subst hk
        rw [List.find?_cons_of_pos _ (by simp)]
        rcases List.mem_cons.mp hmem with heq | hmem2
        · rw [Prod.mk.injEq] at heq
          rw [heq.2]
        · exfalso
          exact hnd2.1 (by
            have : (k0, v).1 ∈ (keysOf rest) := List.mem_map_of_mem Prod.fst hmem2
            simpa [keysOf] using this)
      · rw [List.find?_cons_of_neg _ (by simp [hk])]
        rcases List.mem_cons.mp hmem with heq | hmem2
        · rw [Prod.mk.injEq] at heq
          exact absurd heq.1.symm hk
        · exact ih k v (by simpa [keysOf] using hnd2.2) hmem2

theorem lookupEntry_eq_of_perm
    {records records2 : List (String × String)} {k : String}
    (hperm : records.Perm records2) (hnd : (keysOf records).Nodup)
    (hk : k ∈ keysOf records) :
    lookupEntry records k = lookupEntry records2 k := by
  simp only [keysOf, List.mem_map] at hk
  obtain ⟨⟨k1, v⟩, hmem, hfst⟩ := hk
  have hk1 : k1 = k := hfst
  subst hk1
  have hnd2 : (keysOf records2).Nodup := by
    have hpk : (keysOf records).Perm (keysOf records2) := hperm.map Prod.fst
    exact hpk.nodup_iff.mp hnd
  have h1 := find?_eq_of_nodupKeys records k1 v hnd hmem
  have h2 := find?_eq_of_nodupKeys records2 k1 v hnd2 (hperm.subset hmem)
  unfold lookupEntry
  rw [h1, h2]

/-- C3: `buildMerkleTreeNodes` realizes the canonical construction of §4.1.
For any duplicate-free non-empty hash map: the built tree's leaf positions
are exactly the entries in sorted uuid order; every internal node has two
children, hashes the concatenation of their hashes, and carries the sorted
union of their uuids; an odd trailing node of any level is promoted
unchanged into the next level; and any permutation of the same mapping
builds the identical tree (hence byte-identical root hashes). -/
theorem c3_canonical_build (sha : String → String)
    (records : List (String × String))
    (hkeys : (keysOf records).Nodup) (hne : records ≠ []) :
    (buildMerkleTreeNodes sha records).leaves =
      (sortStrings (keysOf records)).map
        (fun u => MerkleNode.mk (lookupEntry records u) none none [u] true) ∧
    WellCombined sha (buildMerkleTreeNodes sha records) ∧
    (∀ ns : List MerkleNode, ns.length % 2 = 1 →
      (combineLevel sha ns).getLast? = ns.getLast?) ∧
    (∀ records2 : List (String × String), records.Perm records2 →
      buildMerkleTreeNodes sha records = buildMerkleTreeNodes sha records2 ∧
      (buildMerkleTreeNodes sha records).hash =
        (buildMerkleTreeNodes sha records2).hash) := by
  obtain ⟨r, hr, hroot⟩ := buildMerkleTreeNodes_eq_root sha records hne
  refine ⟨?_, ?_, combineLevel_getLast_of_odd sha, ?_⟩
  · have h1 := flatMap_leaves_buildLevelsGo sha
      ((sortStrings (keysOf records)).map
        (fun u => MerkleNode.mk (lookupEntry records u) none none [u] true)).length
      ((sortStrings (keysOf records)).map
        (fun u => MerkleNode.mk (lookupEntry records u) none none [u] true))
    rw [show buildLevelsGo sha
        ((sortStrings (keysOf records)).map
          (fun u => MerkleNode.mk (lookupEntry records u) none none [u] true)).length
        ((sortStrings (keysOf records)).map
          (fun u => MerkleNode.mk (lookupEntry records u) none none [u] true)) =
        buildLevels sha
        ((sortStrings (keysOf records)).map
          (fun u => MerkleNode.mk (lookupEntry records u) none none [u] true))
      from rfl, hr] at h1
    rw [flatMap_leaves_of_childless] at h1
    rw [hroot]
    rw [show ([r] : List MerkleNode).flatMap MerkleNode.leaves = r.leaves from by
      simp] at h1
    exact h1
  · have hwf : ∀ n ∈ buildLevels sha
        ((sortStrings (keysOf records)).map
          (fun u => MerkleNode.mk (lookupEntry records u) none none [u] true)),
        WellCombined sha n := by
      apply wellCombined_buildLevelsGo
      intro n hn
      simp only [List.mem_map] at hn
      obtain ⟨u, _, hu⟩ := hn
      rw [← hu]
      trivial
    rw [hroot]
    exact hwf r (by rw [hr]; simp)
  · intro records2 hperm
    have hkeq : sortStrings (keysOf records) = sortStrings (keysOf records2) :=
      sortStrings_eq_of_perm (hperm.map Prod.fst)
    have hlookup : ∀ u ∈ sortStrings (keysOf records),
        lookupEntry records u = lookupEntry records2 u := by
      intro u hu
      exact lookupEntry_eq_of_perm hperm hkeys
        ((sortStrings_perm (keysOf records)).mem_iff.mp hu)
    have heq : buildMerkleTreeNodes sha records =
        buildMerkleTreeNodes sha records2 := by
      simp only [buildMerkleTreeNodes]
      rw [← hkeq]
      have hmapeq : (sortStrings (keysOf records)).map
          (fun u => MerkleNode.mk (lookupEntry records u) none none [u] true) =
          (sortStrings (keysOf records)).map
            (fun u => MerkleNode.mk (lookupEntry records2 u) none none [u] true) :=
        List.map_congr_left (fun u hu => by rw [hlookup u hu])
      rw [hmapeq]
    exact ⟨heq, by rw [heq]⟩

theorem c3_canonical_build_witness :
    (keysOf [("b", "h2"), ("a", "h1"), ("c", "h3")]).Nodup ∧
    ([("b", "h2"), ("a", "h1"), ("c", "h3")] : List (String × String)) ≠ [] ∧
    ([("b", "h2"), ("a", "h1"), ("c", "h3")] : List (String × String)).Perm
      [("a", "h1"), ("c", "h3"), ("b", "h2")] ∧
    ([MerkleNode.mk "x" none none ["u"] true,
      MerkleNode.mk "y" none none ["v"] true,
      MerkleNode.mk "z" none none ["w"] true] : List MerkleNode).length % 2
        = 1 ∧
    (buildMerkleTreeNodes demoSha [("b", "h2"), ("a", "h1"), ("c", "h3")]).leaves =
      (sortStrings (keysOf [("b", "h2"), ("a", "h1"), ("c", "h3")])).map
        (fun u => MerkleNode.mk
          (lookupEntry [("b", "h2"), ("a", "h1"), ("c", "h3")] u)
          none none [u] true) ∧
    WellCombined demoSha
      (buildMerkleTreeNodes demoSha [("b", "h2"), ("a", "h1"), ("c", "h3")]) ∧
    (combineLevel demoSha
        [MerkleNode.mk "x" none none ["u"] true,
          MerkleNode.mk "y" none none ["v"] true,
          MerkleNode.mk "z" none none ["w"] true]).getLast? =
      ([MerkleNode.mk "x" none none ["u"] true,
        MerkleNode.mk "y" none none ["v"] true,
        MerkleNode.mk "z" none none ["w"] true] : List MerkleNode).getLast? ∧
    (buildMerkleTreeNodes demoSha [("b", "h2"), ("a", "h1"), ("c", "h3")]).hash =
      (buildMerkleTreeNodes demoSha [("a", "h1"), ("c", "h3"), ("b", "h2")]).hash := by
  have hnd : (keysOf [("b", "h2"), ("a", "h1"), ("c", "h3")]).Nodup := by decide
  have hne : ([("b", "h2"), ("a", "h1"), ("c", "h3")] : List (String × String)) ≠ [] := by decide
  have hperm : ([("b", "h2"), ("a", "h1"), ("c", "h3")] : List (String × String)).Perm
      [("a", "h1"), ("c", "h3"), ("b", "h2")] := by decide
  have hodd : ([MerkleNode.mk "x" none none ["u"] true,
      MerkleNode.mk "y" none none ["v"] true,
      MerkleNode.mk "z" none none ["w"] true] : List MerkleNode).length % 2 = 1 := by
    rfl
  have hmain := c3_canonical_build demoSha
    [("b", "h2"), ("a", "h1"), ("c", "h3")] hnd hne
  exact ⟨hnd, hne, hperm, hodd, hmain.1, hmain.2.1,
    hmain.2.2.1 _ hodd, (hmain.2.2.2 _ hperm).2⟩

/-! ## Map and flag lemmas -/

theorem setA_setA {α : Type} :
    ∀ (l : List (String × α)) (k : String) (v w : α),
      setA (setA l k v) k w = setA l k w
  | [], k, v, w => by simp [setA]
  | (k0, v0) :: rest, k, v, w => by
      by_cases h : k0 = k
      · simp [setA, h]
      · simp only [setA, if_neg h]
        rw [setA_setA rest k v w]

theorem lookupA_setA_self {α : Type} :
    ∀ (l : List (String × α)) (k : String) (v : α),
      lookupA (setA l k v) k = some v
  | [], k, v => by simp [setA, lookupA]
  | (k0, v0) :: rest, k, v => by
      by_cases h : k0 = k
      · simp [setA, lookupA, h]
      · simp only [setA, if_neg h, lookupA, List.find?]
        have hbeq : (k0 == k) = false := by
          simp [h]
        rw [hbeq]
        exact lookupA_setA_self rest k v

theorem lookupA_setA_ne {α : Type} :
    ∀ (l : List (String × α)) (k q : String) (v : α), q ≠ k →
      lookupA (setA l k v) q = lookupA l q
  | [], k, q, v, h => by
      have hbeq : (k == q) = false :=
        beq_eq_false_iff_ne.mpr (fun hc => h hc.symm)
      simp only [setA, lookupA, List.find?, hbeq]
  | (k0, v0) :: rest, k, q, v, h => by
      by_cases hk : k0 = k
      · subst hk
        have hbeq : (k0 == q) = false :=
          beq_eq_false_iff_ne.mpr (fun hc => h hc.symm)
        simp only [setA, if_pos rfl, lookupA, List.find?, hbeq]
      · simp only [setA, if_neg hk, lookupA, List.find?]
        cases hbeq : (k0 == q)
        · exact lookupA_setA_ne rest k q v h
        · rfl

theorem mem_addFlag_iff (l : List String) (k q : String) :
    q ∈ addFlag l k ↔ q ∈ l ∨ q = k := by
  unfold addFlag
  split
  · rename_i hmem
    constructor
    · exact Or.inl
    · rintro (h | h)
      · exact h
      · exact h ▸ hmem
  · simp

theorem mem_removeFlag_iff (l : List String) (k q : String) :
    q ∈ removeFlag l k ↔ q ∈ l ∧ q ≠ k := by
  simp [removeFlag, List.mem_filter]

/-! ## Step-function shapes for the orchestrator -/

theorem initPeer_eq (st : OrchState) (p : String) (now : ℚ) :
    initPeer st p now =
      { st with
        peerTraffic :=
          if p ∈ st.peerTraffic then st.peerTraffic
          else st.peerTraffic ++ [p],
        lastActivity :=
          match lookupA st.lastActivity p with
          | some _ => st.lastActivity
          | none => setA st.lastActivity p now } := by
  unfold initPeer
  by_cases hp : p ∈ st.peerTraffic <;>
    rcases h : lookupA st.lastActivity p with _ | v <;>
      simp [hp, h]

theorem extendSyncTimeout_eq (st : OrchState) (p : String) :
    extendSyncTimeout st p =
      { st with
        syncTimeouts :=
          match lookupA st.syncTimeouts p with
          | some _ =>
              if p ∈ st.syncInProgress then
                setA st.syncTimeouts p SYNC_TIMEOUT
              else st.syncTimeouts
          | none => st.syncTimeouts } := by
  unfold extendSyncTimeout
  rcases h : lookupA st.syncTimeouts p with _ | v <;>
    by_cases hp : p ∈ st.syncInProgress <;>
      simp [h, hp]

theorem lookupA_moderation (records : List (String × RecordData)) :
    ∀ k : String, k ∈ keysOf records →
      lookupA (moderateRecordsBatch records) k = some true := by
  induction records with
  | nil => intro k hk; simp [keysOf] at hk
  | cons e rest ih =>
      intro k hk
      simp only [moderateRecordsBatch, List.map_cons, lookupA, List.find?]
      cases hbeq : (e.1 == k)
      · simp only [keysOf, List.map_cons, List.mem_cons] at hk
        rcases hk with heq | hmem
        · rw [heq] at hbeq
          simp at hbeq
        · have := ih k (by simpa [keysOf] using hmem)
          simpa [lookupA, moderateRecordsBatch] using this
      · rfl

theorem moderation_filter_all (records : List (String × RecordData)) :
    records.filter
      (fun e => (lookupA (moderateRecordsBatch records) e.1).getD false) =
      records := by
  apply List.filter_eq_self.mpr
  intro e he
  have h := lookupA_moderation records e.1
    (List.mem_map_of_mem Prod.fst he)
  rw [h]
  rfl

/-! ## C5 — ROOT_HASH handler -/

/-- C5: on receiving a peer's ROOT_HASH from a known peer: if the payload's
root equals the local root, no sync is started and no sync message is
emitted (only `lastActivity` changes); if roots differ while
`processingRecords` or `syncInProgress` is set for the peer, only
`lastActivity` is updated and the handler returns; otherwise
`syncInProgress` is set for the peer, the 120 000 ms (= 120 s) sync timeout
is armed, and the protocol's opening messages are emitted. -/
theorem c5_root_hash_handler (st : OrchState) (sha : String → String)
    (localRootHash remoteRoot peerId : String) (now : ℚ)
    (hknown : peerId ∈ st.peerTraffic) :
    (remoteRoot = localRootHash →
      getRootHashHandler st sha localRootHash remoteRoot peerId now =
        ({ st with lastActivity := setA st.lastActivity peerId now }, [])) ∧
    (remoteRoot ≠ localRootHash →
      (peerId ∈ st.processingRecords ∨ peerId ∈ st.syncInProgress) →
      getRootHashHandler st sha localRootHash remoteRoot peerId now =
        ({ st with lastActivity := setA st.lastActivity peerId now }, [])) ∧
    (remoteRoot ≠ localRootHash →
      peerId ∉ st.processingRecords → peerId ∉ st.syncInProgress →
      getRootHashHandler st sha localRootHash remoteRoot peerId now =
        ({ st with
            lastActivity := setA st.lastActivity peerId now,
            syncInProgress := addFlag st.syncInProgress peerId,
            syncTimeouts := setA st.syncTimeouts peerId SYNC_TIMEOUT },
          startSync sha st.hashMap remoteRoot) ∧
      peerId ∈ (getRootHashHandler st sha localRootHash remoteRoot
        peerId now).1.syncInProgress ∧
      lookupA (getRootHashHandler st sha localRootHash remoteRoot
        peerId now).1.syncTimeouts peerId = some 120000) ∧
    SYNC_TIMEOUT = 120000 := by
  have hLA : setA (initPeer st peerId now).lastActivity peerId now =
      setA st.lastActivity peerId now := by
    rw [initPeer_eq]
    rcases h : lookupA st.lastActivity peerId with _ | v
    · show setA (setA st.lastActivity peerId now) peerId now = _
      exact setA_setA st.lastActivity peerId now now
    · rfl
  have hTraffic : (initPeer st peerId now).peerTraffic = st.peerTraffic := by
    rw [initPeer_eq]
    show (if peerId ∈ st.peerTraffic then st.peerTraffic
      else st.peerTraffic ++ [peerId]) = st.peerTraffic
    rw [if_pos hknown]
  have hProc : (initPeer st peerId now).processingRecords =
      st.processingRecords := by
    rw [initPeer_eq]
  have hSync : (initPeer st peerId now).syncInProgress = st.syncInProgress := by
    rw [initPeer_eq]
  have hTO : (initPeer st peerId now).syncTimeouts = st.syncTimeouts := by
    rw [initPeer_eq]
  have hHM : (initPeer st peerId now).hashMap = st.hashMap := by
    rw [initPeer_eq]
  have hkey : { initPeer st peerId now with
      lastActivity := setA (initPeer st peerId now).lastActivity peerId now }
      = { st with lastActivity := setA st.lastActivity peerId now } := by
    rw [initPeer_eq]
    rcases h : lookupA st.lastActivity peerId with _ | v <;>
      simp [if_pos hknown, setA_setA]
  refine ⟨?_, ?_, ?_, rfl⟩
  · intro heq
    simp only [getRootHashHandler]
    rw [if_neg (not_not_intro hknown), if_neg (by simp [heq]), hkey]
  · intro hne hbusy
    simp only [getRootHashHandler]
    rw [if_neg (not_not_intro hknown), if_pos hne]
    rcases hbusy with hb | hb
    · rw [if_pos (hProc ▸ hb), hkey]
    · by_cases hp : peerId ∈ (initPeer st peerId now).processingRecords
      · rw [if_pos hp, hkey]
      · rw [if_neg hp, if_pos (hSync ▸ hb), hkey]
  · intro hne hp hs
    have heq : getRootHashHandler st sha localRootHash remoteRoot peerId now =
        ({ st with
            lastActivity := setA st.lastActivity peerId now,
            syncInProgress := addFlag st.syncInProgress peerId,
            syncTimeouts := setA st.syncTimeouts peerId SYNC_TIMEOUT },
          startSync sha st.hashMap remoteRoot) := by
      simp only [getRootHashHandler]
      rw [if_neg (not_not_intro hknown), if_pos hne,
        if_neg (hProc ▸ hp), if_neg (hSync ▸ hs)]
      rw [Prod.mk.injEq]
      constructor
      · rw [initPeer_eq]
        rcases h : lookupA st.lastActivity peerId with _ | v <;>
          simp [if_pos hknown, setA_setA]
      · rw [hHM]
    refine ⟨heq, ?_, ?_⟩
    · rw [heq]
      show peerId ∈ addFlag st.syncInProgress peerId
      rw [mem_addFlag_iff]
      exact Or.inr rfl
    · rw [heq]
      show lookupA (setA st.syncTimeouts peerId SYNC_TIMEOUT) peerId = _
      rw [lookupA_setA_self]
      rfl

/-- Concrete orchestrator state for evaluating the ROOT_HASH handler. -/
def c5state : OrchState :=
  ⟨["p"], [], [], [], [], [], [], [], [], [("x", "hx")], []⟩

theorem c5_root_hash_handler_witness :
    "p" ∈ c5state.peerTraffic ∧ "r1" ≠ "r0" ∧
    "p" ∉ c5state.processingRecords ∧ "p" ∉ c5state.syncInProgress ∧
    "p" ∈ (getRootHashHandler c5state demoSha "r0" "r1" "p" 7).1.syncInProgress ∧
    lookupA (getRootHashHandler c5state demoSha "r0" "r1" "p" 7).1.syncTimeouts
      "p" = some 120000 ∧
    getRootHashHandler c5state demoSha "r0" "r0" "p" 7 =
      ({ c5state with lastActivity := setA c5state.lastActivity "p" 7 }, []) := by
  have hk : "p" ∈ c5state.peerTraffic := by decide
  have hne : "r1" ≠ "r0" := by decide
  have hp : "p" ∉ c5state.processingRecords := by decide
  have hs : "p" ∉ c5state.syncInProgress := by decide
  have h3 := (c5_root_hash_handler c5state demoSha "r0" "r1" "p" 7 hk).2.2.1
    hne hp hs
  exact ⟨hk, hne, hp, hs, h3.2.1, h3.2.2,
    (c5_root_hash_handler c5state demoSha "r0" "r0" "p" 7 hk).1 rfl⟩

/-! ## C4 — persistence failure handling -/

/-- C4 (amended): when the batched persistence write fails, the whole batch
is aborted (the hash index is not updated) and the failure is logged, but
the sync state for the peer is NOT cleared: `syncInProgress` is untouched,
the Merkle-update and completion-check timers are still scheduled, pending
batches survive, and only the `processingRecords` flag is released; other
peers' flags and timers are unaffected. -/
theorem c4_persistence_failure_no_cleanup (st : OrchState)
    (records : List (String × RecordData)) (peerId : String) (now : ℚ)
    (hne : records ≠ []) :
    (getRecordsHandler st records peerId now false).hashMap = st.hashMap ∧
    (getRecordsHandler st records peerId now false).errorLog =
      st.errorLog ++ ["Error batch processing records"] ∧
    (getRecordsHandler st records peerId now false).syncInProgress =
      st.syncInProgress ∧
    peerId ∉ (getRecordsHandler st records peerId now false).processingRecords ∧
    lookupA (getRecordsHandler st records peerId now false).syncCompletionChecks
      peerId = some COMPLETION_CHECK_DELAY ∧
    (getRecordsHandler st records peerId now false).pendingRequests =
      st.pendingRequests ∧
    (∀ q, q ≠ peerId →
      ((q ∈ (getRecordsHandler st records peerId now false).processingRecords)
          ↔ q ∈ st.processingRecords) ∧
      lookupA (getRecordsHandler st records peerId now false).syncTimeouts q =
        lookupA st.syncTimeouts q ∧
      lookupA (getRecordsHandler st records peerId now
        false).pendingMerkleUpdates q = lookupA st.pendingMerkleUpdates q ∧
      lookupA (getRecordsHandler st records peerId now
        false).syncCompletionChecks q = lookupA st.syncCompletionChecks q ∧
      lookupA (getRecordsHandler st records peerId now
        false).peerBatchTimings q = lookupA st.peerBatchTimings q) := by
  have hlen : 0 < (records.filter
      (fun e => (lookupA (moderateRecordsBatch records) e.1).getD false)).length := by
    rw [moderation_filter_all]
    exact List.length_pos.mpr hne
  refine ⟨?_, ?_, ?_, ?_, ?_, ?_, ?_⟩
  · simp only [getRecordsHandler, scheduleMerkleRootUpdate,
      scheduleCompletionCheck, recordBatchTiming, initPeer_eq,
      extendSyncTimeout_eq, if_pos hlen, Bool.false_eq_true, if_false]
  · simp only [getRecordsHandler, scheduleMerkleRootUpdate,
      scheduleCompletionCheck, recordBatchTiming, initPeer_eq,
      extendSyncTimeout_eq, if_pos hlen, Bool.false_eq_true, if_false]
  · simp only [getRecordsHandler, scheduleMerkleRootUpdate,
      scheduleCompletionCheck, recordBatchTiming, initPeer_eq,
      extendSyncTimeout_eq, if_pos hlen, Bool.false_eq_true, if_false]
  · simp only [getRecordsHandler, scheduleMerkleRootUpdate,
      scheduleCompletionCheck, recordBatchTiming, initPeer_eq,
      extendSyncTimeout_eq, if_pos hlen, Bool.false_eq_true, if_false]
    rw [mem_removeFlag_iff]
    simp
  · simp only [getRecordsHandler, scheduleMerkleRootUpdate,
      scheduleCompletionCheck, recordBatchTiming, initPeer_eq,
      extendSyncTimeout_eq, if_pos hlen, Bool.false_eq_true, if_false]
    exact lookupA_setA_self _ _ _
  · simp only [getRecordsHandler, scheduleMerkleRootUpdate,
      scheduleCompletionCheck, recordBatchTiming, initPeer_eq,
      extendSyncTimeout_eq, if_pos hlen, Bool.false_eq_true, if_false]
  · intro q hq
    simp only [getRecordsHandler, scheduleMerkleRootUpdate,
      scheduleCompletionCheck, recordBatchTiming, initPeer_eq,
      extendSyncTimeout_eq, if_pos hlen, Bool.false_eq_true, if_false]
    refine ⟨?_, ?_, ?_, ?_, ?_⟩
    · rw [mem_removeFlag_iff, mem_addFlag_iff]
      constructor
      · rintro ⟨hmem | heq, _⟩
        · exact hmem
        · exact absurd heq hq
      · intro hmem
        exact ⟨Or.inl hmem, hq⟩
    · show lookupA (match lookupA st.syncTimeouts peerId with
        | some _ =>
            if peerId ∈ st.syncInProgress then
              setA st.syncTimeouts peerId SYNC_TIMEOUT
            else st.syncTimeouts
        | none => st.syncTimeouts) q = lookupA st.syncTimeouts q
      rcases h : lookupA st.syncTimeouts peerId with _ | v
      · rfl
      · by_cases hip : peerId ∈ st.syncInProgress
        · rw [if_pos hip]
          exact lookupA_setA_ne st.syncTimeouts peerId q SYNC_TIMEOUT hq
        · rw [if_neg hip]
    · exact lookupA_setA_ne _ peerId q _ hq
    · exact lookupA_setA_ne _ peerId q _ hq
    · exact lookupA_setA_ne _ peerId q _ hq

/-- Concrete orchestrator state for exercising a failing batch save: a sync
with peer "p" is in progress (flag set, timeout armed). -/
def c4state : OrchState :=
  ⟨["p"], [("p", 0)], [], ["p"], [("p", 120000)], [], [], [], [], [], []⟩

/-- A concrete syncable record. -/
def c4record : RecordData :=
  ⟨"u1", 0, "b", ⟨"npub1x"⟩, ⟨"hello", none⟩, ⟨0, 0⟩, ⟨"h-u1", "sig-u1"⟩⟩

/-- C4 counterexample: the batch save for the records from "p" fails (the
error is logged, the hash index is not updated), yet `syncInProgress` for
"p" is NOT cleared — `cleanupPeerSync` is not invoked on the persistence
failure path, contradicting the claim that the orchestrator clears the sync
state for the originating peer. -/
theorem c4_counterexample :
    (getRecordsHandler c4state [("u1", c4record)] "p" 1000 false).errorLog =
      ["Error batch processing records"] ∧
    (getRecordsHandler c4state [("u1", c4record)] "p" 1000 false).hashMap
      = [] ∧
    "p" ∈ (getRecordsHandler c4state [("u1", c4record)] "p" 1000
      false).syncInProgress ∧
    (cleanupPeerSync (getRecordsHandler c4state [("u1", c4record)] "p" 1000
      false) "p").syncInProgress = [] := by
  refine ⟨rfl, rfl, ?_, rfl⟩
  have h : (getRecordsHandler c4state [("u1", c4record)] "p" 1000
      false).syncInProgress = ["p"] := rfl
  rw [h]
  exact List.mem_singleton.mpr rfl

theorem c4_persistence_failure_no_cleanup_witness :
    ([("u1", c4record)] : List (String × RecordData)) ≠ [] ∧
    (getRecordsHandler c4state [("u1", c4record)] "p" 1000 false).hashMap =
      c4state.hashMap ∧
    (getRecordsHandler c4state [("u1", c4record)] "p" 1000
      false).syncInProgress = c4state.syncInProgress ∧
    "p" ∉ (getRecordsHandler c4state [("u1", c4record)] "p" 1000
      false).processingRecords := by
  have hne : ([("u1", c4record)] : List (String × RecordData)) ≠ [] :=
    List.cons_ne_nil _ _
  have h := c4_persistence_failure_no_cleanup c4state [("u1", c4record)]
    "p" 1000 hne
  exact ⟨hne, h.1, h.2.2.1, h.2.2.2.1⟩

/-! ## C9 — login token -/

/-- C9: loading yields no session when the token is absent, expired
(> 24 h), or carries a signature that does not verify over
`sha256(publicKey ‖ decimal(timestamp))`; and a token persisted by a
successful import, loaded within 24 h, restores a session with the token's
public key. -/
theorem c9_login_token (c : CryptoPrims) (t : LoginToken)
    (now now2 tImp : Nat) (npub nsec : String) (tok : LoginToken)
    (pub priv : String) :
    loadTokenFromDB c none now = none ∧
    (TOKEN_VALIDITY_MS < now - t.timestamp →
      loadTokenFromDB c (some t) now = none) ∧
    (c.verifySchnorr t.signature
        (c.sha256 (t.publicKey ++ toString t.timestamp)) t.publicKey = false →
      loadTokenFromDB c (some t) now = none) ∧
    (handleImport c npub nsec tImp = .ok (tok, pub, priv) →
      now2 - tok.timestamp ≤ TOKEN_VALIDITY_MS →
      loadTokenFromDB c (some tok) now2 = some pub ∧ pub = tok.publicKey) ∧
    TOKEN_VALIDITY_MS = 24 * 60 * 60 * 1000 := by
  refine ⟨rfl, ?_, ?_, ?_, rfl⟩
  · intro h
    simp only [loadTokenFromDB]
    rw [if_pos h]
  · intro h
    simp only [loadTokenFromDB]
    split
    · rfl
    · rw [h]
      rfl
  · intro himp hfresh
    rcases hn : c.decodeBech32Key npub with _ | p0 <;>
      rcases hs : c.decodeBech32Key nsec with _ | s0 <;>
        simp only [handleImport, hn, hs] at himp
    · cases himp
    · cases himp
    · cases himp
    · split_ifs at himp with hmatch hverify
      rw [Except.ok.injEq, Prod.mk.injEq, Prod.mk.injEq] at himp
      obtain ⟨htok, hpub, hpriv⟩ := himp
      subst htok
      subst hpub
      constructor
      · simp only [loadTokenFromDB]
        rw [if_neg (by
          simp only [Nat.not_lt]
          exact hfresh)]
        show (if c.verifySchnorr (c.signSchnorr
            (c.sha256 (c.toLower p0 ++ toString tImp)) (c.toLower s0))
            (c.sha256 (c.toLower p0 ++ toString tImp)) (c.toLower p0)
          then some (c.toLower p0) else none) = some (c.toLower p0)
        rw [if_pos hverify]
      · rfl

/-- Trivial concrete crypto primitives under which import succeeds. -/
def demoCrypto : CryptoPrims :=
  ⟨fun s => "h[" ++ s ++ "]", fun _ _ _ => true, fun _ _ => "sig",
    fun s => some s, fun s => s, fun s => s⟩

/-- Concrete crypto primitives whose verification always fails. -/
def demoCryptoReject : CryptoPrims :=
  ⟨fun s => "h[" ++ s ++ "]", fun _ _ _ => false, fun _ _ => "sig",
    fun s => some s, fun s => s, fun s => s⟩

theorem c9_login_token_witness :
    handleImport demoCrypto "pk" "pk" 0 =
      .ok (⟨1, "pk", 0, "sig"⟩, "pk", "pk") ∧
    (5000 - (0 : Nat) ≤ TOKEN_VALIDITY_MS) ∧
    loadTokenFromDB demoCrypto (some ⟨1, "pk", 0, "sig"⟩) 5000 = some "pk" ∧
    TOKEN_VALIDITY_MS < 99999999 - (0 : Nat) ∧
    loadTokenFromDB demoCrypto (some ⟨1, "pk", 0, "sig"⟩) 99999999 = none ∧
    demoCryptoReject.verifySchnorr "sig"
      (demoCryptoReject.sha256 ("pk" ++ toString (0 : Nat))) "pk" = false ∧
    loadTokenFromDB demoCryptoReject (some ⟨1, "pk", 0, "sig"⟩) 5000 = none := by
  have himp : handleImport demoCrypto "pk" "pk" 0 =
      .ok (⟨1, "pk", 0, "sig"⟩, "pk", "pk") := rfl
  have hfresh : 5000 - ((⟨1, "pk", 0, "sig"⟩ : LoginToken)).timestamp ≤
      TOKEN_VALIDITY_MS := by decide
  have hexp : TOKEN_VALIDITY_MS <
      99999999 - ((⟨1, "pk", 0, "sig"⟩ : LoginToken)).timestamp := by decide
  have hbad : demoCryptoReject.verifySchnorr
      ((⟨1, "pk", 0, "sig"⟩ : LoginToken)).signature
      (demoCryptoReject.sha256
        (((⟨1, "pk", 0, "sig"⟩ : LoginToken)).publicKey ++
          toString ((⟨1, "pk", 0, "sig"⟩ : LoginToken)).timestamp))
      ((⟨1, "pk", 0, "sig"⟩ : LoginToken)).publicKey = false := rfl
  refine ⟨himp, hfresh, ?_, hexp, ?_, hbad, ?_⟩
  · exact ((c9_login_token demoCrypto ⟨1, "pk", 0, "sig"⟩ 0 5000 0 "pk" "pk"
      ⟨1, "pk", 0, "sig"⟩ "pk" "pk").2.2.2.1 himp hfresh).1
  · exact (c9_login_token demoCrypto ⟨1, "pk", 0, "sig"⟩ 99999999 0 0 "x" "x"
      ⟨1, "pk", 0, "sig"⟩ "x" "x").2.1 hexp
  · exact (c9_login_token demoCryptoReject ⟨1, "pk", 0, "sig"⟩ 5000 0 0 "x"
      "x" ⟨1, "pk", 0, "sig"⟩ "x" "x").2.2.1 hbad

end PeersetDB
